import Mathlib

/-!
Verification of the key-value addressing core of `etcd-rs` (`src/kv/mod.rs`).

Byte sequences (`Vec<u8>`) are modelled as `List Nat`; `ValidBytes` states that
every element fits in a `u8`.  Machine integers (`i64`) are modelled as `Int`.
Fallible operations (the text accessors, which panic on invalid UTF-8) return
`Option`.
-/

namespace Etcd

/-- Every element of the list fits in a `u8` (the well-formedness condition of a
modelled `Vec<u8>`). -/
def ValidBytes (l : List Nat) : Prop := ∀ b ∈ l, b < 256

instance (l : List Nat) : Decidable (ValidBytes l) :=
  inferInstanceAs (Decidable (∀ b ∈ l, b < 256))

/-- `LeaseId` from `crate::lease` (an `i64` lease identifier; its defining module is
not under `src/`, but it is a bare integer alias). -/
abbrev LeaseId := Int

/-- The `KeyValue` struct of `src/kv/mod.rs` (lines 58-66). -/
structure KeyValue where
  key : List Nat
  value : List Nat
  create_revision : Int
  mod_revision : Int
  version : Int
  lease : LeaseId
  deriving DecidableEq

/-- The wire-level record `mvccpb::KeyValue` (generated protobuf code, not under
`src/`): a record with exactly the six fields read by the `From` conversion in
`src/kv/mod.rs` lines 82-93. -/
structure mvccpb.KeyValue where
  key : List Nat
  value : List Nat
  create_revision : Int
  mod_revision : Int
  version : Int
  lease : Int
  deriving DecidableEq

/-- `impl From<mvccpb::KeyValue> for KeyValue` (`src/kv/mod.rs` lines 82-93). -/
def KeyValue.fromProto (proto : mvccpb.KeyValue) : KeyValue :=
  ⟨proto.key, proto.value, proto.create_revision, proto.mod_revision,
    proto.version, proto.lease⟩

/-- The `KeyRange` struct of `src/kv/mod.rs` (lines 96-100). -/
structure KeyRange where
  key : List Nat
  range_end : List Nat
  deriving DecidableEq

/-- `KeyRange::range` (`src/kv/mod.rs` lines 104-113): both boundaries are taken
verbatim. -/
def KeyRange.range (key range_end : List Nat) : KeyRange := ⟨key, range_end⟩

/-- `KeyRange::key` (`src/kv/mod.rs` lines 116-124): point semantics, empty
`range_end`.  (Named `ofKey` because `KeyRange.key` is taken by the field
projection.) -/
def KeyRange.ofKey (key : List Nat) : KeyRange := ⟨key, []⟩

/-- `KeyRange::all` (`src/kv/mod.rs` lines 127-132): the all-keys sentinel. -/
def KeyRange.all : KeyRange := ⟨[0], [0]⟩

/-- The backward scan inside `KeyRange::prefix` (`src/kv/mod.rs` lines 149-155):
`for i in (0..end.len()).rev() { if end[i] < 0xff { end[i] += 1; end.truncate(i+1);
break; } }`.  Returns `some` of the truncated-and-incremented vector when some byte
is below `0xff` (the rightmost such byte is used, as in the loop), and `none` when
the loop falls through without firing. -/
def pfxEndLoop : List Nat → Option (List Nat)
  | [] => none
  | b :: rest =>
    match pfxEndLoop rest with
    | some r => some (b :: r)
    | none => if b < 0xff then some [b + 1] else none

/-- `KeyRange::prefix` (`src/kv/mod.rs` lines 135-159).  (Named `pfx` because the
source name is a reserved token in Lean.)  An empty input delegates to `all()`;
otherwise `range_end` starts as a clone of the input and the backward scan is
applied; when the scan falls through (all bytes `0xff`) the clone is returned
unchanged, exactly as in the source. -/
def KeyRange.pfx (p : List Nat) : KeyRange :=
  if p = [] then KeyRange.all
  else ⟨p, (pfxEndLoop p).getD p⟩

/-- The `std::ops::Range` shape used by `impl From<Range<T>> for KeyRange`
(`src/kv/mod.rs` lines 162-169); the Rust field `end` is renamed `stop` because
`end` is reserved in Lean. -/
structure RustRange where
  start : List Nat
  stop : List Nat

/-- `impl From<Range<T>> for KeyRange` (`src/kv/mod.rs` lines 162-169):
delegates to `KeyRange::range(range.start, range.end)`. -/
def KeyRange.fromRange (r : RustRange) : KeyRange := KeyRange.range r.start r.stop

/-- `impl From<&str> for KeyRange` (`src/kv/mod.rs` lines 171-175): delegates to
`KeyRange::key`; the string is its UTF-8 byte sequence. -/
def KeyRange.fromStr (s : List Nat) : KeyRange := KeyRange.ofKey s

/-- `impl From<String> for KeyRange` (`src/kv/mod.rs` lines 177-181): delegates to
`KeyRange::key`; the string is its UTF-8 byte sequence. -/
def KeyRange.fromString (s : List Nat) : KeyRange := KeyRange.ofKey s

/-- A UTF-8 continuation byte: `0x80..=0xbf`. -/
def utf8Cont (c : Nat) : Bool := decide (0x80 ≤ c) && decide (c ≤ 0xbf)

/-- Decode one UTF-8 scalar value from a leading byte `b` followed by `bs`,
mirroring the validation performed by `std::str::from_utf8` (RFC 3629: shortest
form only, surrogates and values above `U+10FFFF` rejected).  Returns the decoded
scalar and the remaining bytes, or `none` on malformed input. -/
def utf8DecodeChar (b : Nat) (bs : List Nat) : Option (Nat × List Nat) :=
  if b ≤ 0x7f then some (b, bs)
  else if b < 0xc2 then none
  else if b ≤ 0xdf then
    match bs with
    | c1 :: r =>
      if utf8Cont c1 then some ((b - 0xc0) * 64 + (c1 - 0x80), r) else none
    | [] => none
  else if b ≤ 0xef then
    match bs with
    | c1 :: c2 :: r =>
      if b = 0xe0 then
        if decide (0xa0 ≤ c1) && decide (c1 ≤ 0xbf) && utf8Cont c2 then
          some ((b - 0xe0) * 4096 + (c1 - 0x80) * 64 + (c2 - 0x80), r)
        else none
      else if b = 0xed then
        if decide (0x80 ≤ c1) && decide (c1 ≤ 0x9f) && utf8Cont c2 then
          some ((b - 0xe0) * 4096 + (c1 - 0x80) * 64 + (c2 - 0x80), r)
        else none
      else
        if utf8Cont c1 && utf8Cont c2 then
          some ((b - 0xe0) * 4096 + (c1 - 0x80) * 64 + (c2 - 0x80), r)
        else none
    | _ => none
  else if b ≤ 0xf4 then
    match bs with
    | c1 :: c2 :: c3 :: r =>
      if b = 0xf0 then
        if decide (0x90 ≤ c1) && decide (c1 ≤ 0xbf) && utf8Cont c2 && utf8Cont c3 then
          some ((b - 0xf0) * 262144 + (c1 - 0x80) * 4096 + (c2 - 0x80) * 64 + (c3 - 0x80), r)
        else none
      else if b = 0xf4 then
        if decide (0x80 ≤ c1) && decide (c1 ≤ 0x8f) && utf8Cont c2 && utf8Cont c3 then
          some ((b - 0xf0) * 262144 + (c1 - 0x80) * 4096 + (c2 - 0x80) * 64 + (c3 - 0x80), r)
        else none
      else
        if utf8Cont c1 && utf8Cont c2 && utf8Cont c3 then
          some ((b - 0xf0) * 262144 + (c1 - 0x80) * 4096 + (c2 - 0x80) * 64 + (c3 - 0x80), r)
        else none
    | _ => none
  else none

/-- Fuelled decoding loop of a whole byte sequence into Unicode scalar values;
since every step consumes at least one byte, fuel equal to the length of the input
makes the loop total (`utf8DecodeChar_length` below bounds each step). -/
def utf8DecodeFuel : Nat → List Nat → Option (List Nat)
  | _, [] => some []
  | 0, _ :: _ => none
  | n + 1, b :: bs =>
    match utf8DecodeChar b bs with
    | some (c, r) =>
      match utf8DecodeFuel n r with
      | some cs => some (c :: cs)
      | none => none
    | none => none

/-- Decode a byte sequence into its Unicode scalar values (the model of
`std::str::from_utf8` succeeding); `none` models the `Err` case on which the
accessors panic. -/
def utf8Decode (l : List Nat) : Option (List Nat) := utf8DecodeFuel l.length l

/-- Encode one Unicode scalar value into UTF-8 bytes (shortest form). -/
def utf8EncodeChar (c : Nat) : List Nat :=
  if c < 0x80 then [c]
  else if c < 0x800 then [0xc0 + c / 64, 0x80 + c % 64]
  else if c < 0x10000 then [0xe0 + c / 4096, 0x80 + c / 64 % 64, 0x80 + c % 64]
  else [0xf0 + c / 262144, 0x80 + c / 4096 % 64, 0x80 + c / 64 % 64, 0x80 + c % 64]

/-- Encode a sequence of Unicode scalar values into UTF-8 bytes. -/
def utf8Encode : List Nat → List Nat
  | [] => []
  | c :: cs => utf8EncodeChar c ++ utf8Encode cs

/-- A Unicode scalar value: below `U+110000` and not a surrogate. -/
def UnicodeScalar (c : Nat) : Prop := c < 0x110000 ∧ ¬(0xd800 ≤ c ∧ c ≤ 0xdfff)

instance (c : Nat) : Decidable (UnicodeScalar c) :=
  inferInstanceAs (Decidable (_ ∧ _))

/-- `KeyValue::key_str` (`src/kv/mod.rs` lines 71-73):
`std::str::from_utf8(&self.key).expect(..)` — the successful decode, with `none`
modelling the panic of `expect` on invalid UTF-8. -/
def KeyValue.key_str (kv : KeyValue) : Option (List Nat) := utf8Decode kv.key

/-- `KeyValue::value_str` (`src/kv/mod.rs` lines 77-79):
`std::str::from_utf8(&self.value).expect(..)` — the successful decode, with `none`
modelling the panic of `expect` on invalid UTF-8. -/
def KeyValue.value_str (kv : KeyValue) : Option (List Nat) := utf8Decode kv.value

/-! Helper lemmas about the backward scan of `KeyRange::prefix`. -/

theorem pfxEndLoop_some_shape {p r : List Nat} (h : pfxEndLoop p = some r) :
    r ≠ [] ∧ r.length ≤ p.length := by
  induction p generalizing r with
  | nil => simp [pfxEndLoop] at h
  | cons b rest ih =>
    cases hr : pfxEndLoop rest with
    | some r0 =>
      simp only [pfxEndLoop, hr, Option.some.injEq] at h
      subst h
      obtain ⟨h1, h2⟩ := ih hr
      exact ⟨by simp, by simpa using Nat.succ_le_succ h2⟩
    | none =>
      by_cases hb : b < 255
      · simp only [pfxEndLoop, hr, if_pos hb, Option.some.injEq] at h
        subst h
        exact ⟨by simp, by simp⟩
      · simp [pfxEndLoop, hr, if_neg hb] at h

theorem pfxEndLoop_valid {p r : List Nat} (hv : ValidBytes p)
    (h : pfxEndLoop p = some r) : ValidBytes r := by
  induction p generalizing r with
  | nil => simp [pfxEndLoop] at h
  | cons b rest ih =>
    cases hr : pfxEndLoop rest with
    | some r0 =>
      simp only [pfxEndLoop, hr, Option.some.injEq] at h
      subst h
      intro x hx
      rcases List.mem_cons.mp hx with hx | hx
      · exact hx ▸ hv b (by simp)
      · exact ih (fun y hy => hv y (by simp [hy])) hr x hx
    | none =>
      by_cases hb : b < 255
      · simp only [pfxEndLoop, hr, if_pos hb, Option.some.injEq] at h
        subst h
        intro x hx
        simp at hx
        omega
      · simp [pfxEndLoop, hr, if_neg hb] at h

theorem pfxEndLoop_none_replicate {p : List Nat} (hv : ValidBytes p)
    (h : pfxEndLoop p = none) : p = List.replicate p.length 255 := by
  induction p with
  | nil => rfl
  | cons b rest ih =>
    cases hr : pfxEndLoop rest with
    | some r0 => simp [pfxEndLoop, hr] at h
    | none =>
      by_cases hb : b < 255
      · simp [pfxEndLoop, hr, if_pos hb] at h
      · have hb255 : b = 255 := by
          have := hv b (by simp)
          omega
        rw [List.length_cons, List.replicate_succ, hb255]
        exact congrArg _ (ih (fun y hy => hv y (by simp [hy])) hr)

theorem pfxEndLoop_decomp {p q : List Nat} (hv : ValidBytes p)
    (h : pfxEndLoop p = some q) :
    ∃ a c n, c < 255 ∧ p = a ++ c :: List.replicate n 255 ∧ q = a ++ [c + 1] := by
  induction p generalizing q with
  | nil => simp [pfxEndLoop] at h
  | cons b rest ih =>
    cases hr : pfxEndLoop rest with
    | some r0 =>
      simp only [pfxEndLoop, hr, Option.some.injEq] at h
      subst h
      obtain ⟨a, c, n, hc, hp, hq⟩ := ih (fun y hy => hv y (by simp [hy])) hr
      exact ⟨b :: a, c, n, hc, by simp [hp], by simp [hq]⟩
    | none =>
      by_cases hb : b < 255
      · simp only [pfxEndLoop, hr, if_pos hb, Option.some.injEq] at h
        subst h
        refine ⟨[], b, rest.length, hb, ?_, by simp⟩
        have hrest := pfxEndLoop_none_replicate (fun y hy => hv y (by simp [hy])) hr
        simpa using congrArg (b :: ·) hrest
      · simp [pfxEndLoop, hr, if_neg hb] at h

/-! Lemmas about the UTF-8 codec used by the text accessors. -/

theorem utf8DecodeChar_length {b : Nat} {bs : List Nat} {c : Nat} {r : List Nat}
    (h : utf8DecodeChar b bs = some (c, r)) : r.length ≤ bs.length := by
  unfold utf8DecodeChar at h
  repeat' split at h
  all_goals first
    | (simp only [Option.some.injEq, Prod.mk.injEq] at h
       obtain ⟨h1, h2⟩ := h
       subst h2
       simp
       try omega)
    | (exact absurd h (by simp))

theorem utf8DecodeChar_spec {b : Nat} {bs : List Nat} {c : Nat} {r : List Nat}
    (h : utf8DecodeChar b bs = some (c, r)) :
    UnicodeScalar c ∧ utf8EncodeChar c ++ r = b :: bs := by
  unfold utf8DecodeChar at h
  repeat' split at h
  all_goals first
    | (try simp only [utf8Cont, Bool.and_eq_true, decide_eq_true_eq] at *
       simp only [Option.some.injEq, Prod.mk.injEq] at h
       obtain ⟨h1, h2⟩ := h
       subst h2
       subst h1
       refine ⟨⟨by omega, by omega⟩, ?_⟩
       rw [utf8EncodeChar]
       split_ifs <;>
         first
           | (exfalso; omega)
           | (simp only [List.cons_append, List.nil_append, List.cons.injEq,
                and_true]
              try omega))
    | (exact absurd h (by simp))

theorem utf8DecodeFuel_sound {n : Nat} {l cs : List Nat}
    (hn : l.length ≤ n) (h : utf8DecodeFuel n l = some cs) :
    utf8Encode cs = l ∧ ∀ c ∈ cs, UnicodeScalar c := by
  induction n generalizing l cs with
  | zero =>
    cases l with
    | nil =>
      simp only [utf8DecodeFuel, Option.some.injEq] at h
      subst h
      exact ⟨rfl, by simp⟩
    | cons b bs => simp at hn
  | succ n ih =>
    cases l with
    | nil =>
      simp only [utf8DecodeFuel, Option.some.injEq] at h
      subst h
      exact ⟨rfl, by simp⟩
    | cons b bs =>
      cases hdc : utf8DecodeChar b bs with
      | none => simp [utf8DecodeFuel, hdc] at h
      | some pr =>
        obtain ⟨c, r⟩ := pr
        cases hrec : utf8DecodeFuel n r with
        | none => simp [utf8DecodeFuel, hdc, hrec] at h
        | some cs' =>
          simp only [utf8DecodeFuel, hdc, hrec, Option.some.injEq] at h
          subst h
          have hlen : r.length ≤ n := by
            have := utf8DecodeChar_length hdc
            simp at hn
            omega
          obtain ⟨henc, hsc⟩ := ih hlen hrec
          obtain ⟨hscalar, hround⟩ := utf8DecodeChar_spec hdc
          refine ⟨?_, ?_⟩
          · show utf8EncodeChar c ++ utf8Encode cs' = b :: bs
            rw [henc, hround]
          · intro x hx
            rcases List.mem_cons.mp hx with hx | hx
            · exact hx ▸ hscalar
            · exact hsc x hx

theorem utf8EncodeChar_decode {c : Nat} (hc : UnicodeScalar c) (rest : List Nat) :
    ∃ b bs, utf8EncodeChar c = b :: bs ∧
      utf8DecodeChar b (bs ++ rest) = some (c, rest) := by
  obtain ⟨hlt, hsur⟩ := hc
  by_cases h1 : c < 0x80
  · refine ⟨c, [], by rw [utf8EncodeChar, if_pos h1], ?_⟩
    unfold utf8DecodeChar
    rw [if_pos (by omega)]
    simp
  · by_cases h2 : c < 0x800
    · refine ⟨0xc0 + c / 64, [0x80 + c % 64],
        by rw [utf8EncodeChar, if_neg h1, if_pos h2], ?_⟩
      unfold utf8DecodeChar
      rw [if_neg (by omega), if_neg (by omega), if_pos (by omega)]
      show (if utf8Cont (0x80 + c % 64) then _ else _) = _
      rw [if_pos (by simp [utf8Cont]; omega)]
      simp only [Option.some.injEq, Prod.mk.injEq]
      exact ⟨by omega, rfl⟩
    · by_cases h3 : c < 0x10000
      · refine ⟨0xe0 + c / 4096, [0x80 + c / 64 % 64, 0x80 + c % 64],
          by rw [utf8EncodeChar, if_neg h1, if_neg h2, if_pos h3], ?_⟩
        unfold utf8DecodeChar
        rw [if_neg (by omega), if_neg (by omega), if_neg (by omega),
          if_pos (by omega)]
        by_cases he0 : c < 0x1000
        · show (if (0xe0 : Nat) + c / 4096 = 0xe0 then _ else _) = _
          rw [if_pos (by omega)]
          rw [if_pos (by simp [utf8Cont]; omega)]
          simp only [Option.some.injEq, Prod.mk.injEq]
          exact ⟨by omega, rfl⟩
        · by_cases hed : 0xd000 ≤ c ∧ c < 0xe000
          · show (if (0xe0 : Nat) + c / 4096 = 0xe0 then _ else _) = _
            rw [if_neg (by omega), if_pos (by omega)]
            rw [if_pos (by simp [utf8Cont]; omega)]
            simp only [Option.some.injEq, Prod.mk.injEq]
            exact ⟨by omega, rfl⟩
          · show (if (0xe0 : Nat) + c / 4096 = 0xe0 then _ else _) = _
            rw [if_neg (by omega), if_neg (by omega)]
            rw [if_pos (by simp [utf8Cont]; omega)]
            simp only [Option.some.injEq, Prod.mk.injEq]
            exact ⟨by omega, rfl⟩
      · refine ⟨0xf0 + c / 262144,
          [0x80 + c / 4096 % 64, 0x80 + c / 64 % 64, 0x80 + c % 64],
          by rw [utf8EncodeChar, if_neg h1, if_neg h2, if_neg h3], ?_⟩
        unfold utf8DecodeChar
        rw [if_neg (by omega), if_neg (by omega), if_neg (by omega),
          if_neg (by omega), if_pos (by omega)]
        by_cases hf0 : c < 0x40000
        · show (if (0xf0 : Nat) + c / 262144 = 0xf0 then _ else _) = _
          rw [if_pos (by omega)]
          rw [if_pos (by simp [utf8Cont]; omega)]
          simp only [Option.some.injEq, Prod.mk.injEq]
          exact ⟨by omega, rfl⟩
        · by_cases hf4 : 0x100000 ≤ c
          · show (if (0xf0 : Nat) + c / 262144 = 0xf0 then _ else _) = _
            rw [if_neg (by omega), if_pos (by omega)]
            rw [if_pos (by simp [utf8Cont]; omega)]
            simp only [Option.some.injEq, Prod.mk.injEq]
            exact ⟨by omega, rfl⟩
          · show (if (0xf0 : Nat) + c / 262144 = 0xf0 then _ else _) = _
            rw [if_neg (by omega), if_neg (by omega)]
            rw [if_pos (by simp [utf8Cont]; omega)]
            simp only [Option.some.injEq, Prod.mk.injEq]
            exact ⟨by omega, rfl⟩

theorem utf8DecodeFuel_encode {cs : List Nat} (hcs : ∀ c ∈ cs, UnicodeScalar c) :
    ∀ n, (utf8Encode cs).length ≤ n → utf8DecodeFuel n (utf8Encode cs) = some cs := by
  induction cs with
  | nil =>
    intro n _
    cases n with
    | zero => rfl
    | succ m => rfl
  | cons c cs' ih =>
    intro n hn
    obtain ⟨b, bs, hb, hdec⟩ :=
      utf8EncodeChar_decode (hcs c (by simp)) (utf8Encode cs')
    have henc : utf8Encode (c :: cs') = b :: (bs ++ utf8Encode cs') := by
      show utf8EncodeChar c ++ utf8Encode cs' = _
      rw [hb]
      simp
    rw [henc] at hn ⊢
    obtain ⟨m, rfl⟩ : ∃ m, n = m + 1 := ⟨n - 1, by simp at hn; omega⟩
    have hlen : (utf8Encode cs').length ≤ m := by simp at hn; omega
    simp only [utf8DecodeFuel, hdec,
      ih (fun x hx => hcs x (by simp [hx])) m hlen]

/-! Lemmas about the lexicographic order on byte sequences, used for the
least-upper-bound property of `KeyRange::prefix`. -/

theorem lex_replicate_255 {s : List Nat} (hv : ValidBytes s) {L : Nat}
    (hL : s.length ≤ L) : ¬ List.Lex (· < ·) (List.replicate L 255) s := by
  induction s generalizing L with
  | nil => exact List.Lex.not_nil_right _ _
  | cons d t ih =>
    intro hlex
    obtain ⟨L', rfl⟩ : ∃ L', L = L' + 1 := ⟨L - 1, by simp at hL; omega⟩
    rw [List.replicate_succ] at hlex
    cases hlex with
    | rel h =>
      have := hv d (by simp)
      omega
    | cons h =>
      exact ih (fun y hy => hv y (by simp [hy])) (by simp at hL; omega) h

theorem lex_min_aux (c n0 : Nat) (hc : c < 255) :
    ∀ (a e : List Nat), ValidBytes e →
      (∀ m, List.Lex (· < ·) (a ++ c :: List.replicate (n0 + m) 255) e) →
      ¬ List.Lex (· < ·) e (a ++ [c + 1]) := by
  intro a
  induction a with
  | nil =>
    intro e hve H contra
    cases e with
    | nil => exact absurd (H 0) (List.Lex.not_nil_right _ _)
    | cons d e' =>
      simp only [List.nil_append] at H contra
      have hd : d ≤ c := by
        cases contra with
        | rel h => omega
        | cons h => exact absurd h (List.Lex.not_nil_right _ _)
      have hdc : d = c := by
        cases H 0 with
        | rel h => omega
        | cons h => rfl
      subst hdc
      have Hrep : ∀ m, List.Lex (· < ·) (List.replicate (n0 + m) 255) e' := by
        intro m
        cases H m with
        | rel h => omega
        | cons h => exact h
      exact absurd (Hrep e'.length)
        (lex_replicate_255 (fun y hy => hve y (by simp [hy])) (by omega))
  | cons x a' ih =>
    intro e hve H contra
    cases e with
    | nil => exact absurd (H 0) (List.Lex.not_nil_right _ _)
    | cons d e' =>
      simp only [List.cons_append] at H contra
      cases contra with
      | rel h1 =>
        cases H 0 with
        | rel h2 => omega
        | cons h2 => omega
      | cons h1 =>
        have Hrest : ∀ m,
            List.Lex (· < ·) (a' ++ c :: List.replicate (n0 + m) 255) e' := by
          intro m
          cases H m with
          | rel h2 => omega
          | cons h2 => exact h2
        exact ih e' (fun y hy => hve y (by simp [hy])) Hrest h1

/-! Theorems for the claims. -/

/-- C4: `KeyRange::prefix` applied to the empty byte sequence returns a `KeyRange`
equal to `KeyRange::all()`. -/
theorem c4_pfx_empty_eq_all : KeyRange.pfx [] = KeyRange.all := rfl

/-- C3: `KeyRange::prefix("abc")` yields `range_end == "abd"`, and
`KeyRange::prefix("ab\xff")` yields `range_end == "ac"` (increment with carry
truncation of trailing `0xff` bytes). -/
theorem c3_pfx_examples :
    (KeyRange.pfx [0x61, 0x62, 0x63]).range_end = [0x61, 0x62, 0x64] ∧
    (KeyRange.pfx [0x61, 0x62, 0xff]).range_end = [0x61, 0x63] := by
  exact ⟨rfl, rfl⟩

/-- C5: for every byte sequence `k`, `KeyRange::key(k)` has `key == k` and
`range_end == []` (point semantics), and `KeyRange::all()` has
`key == range_end == [0x00]` (the all-keys sentinel). -/
theorem c5_key_point_all_sentinel (k : List Nat) :
    (KeyRange.ofKey k).key = k ∧ (KeyRange.ofKey k).range_end = [] ∧
    KeyRange.all.key = [0] ∧ KeyRange.all.range_end = [0] :=
  ⟨rfl, rfl, rfl, rfl⟩

/-- C6: converting a wire record into `KeyValue` preserves every field
(field-for-field round-trip fidelity); in particular the concrete record
`{key:"a", value:"1", create_revision:5, mod_revision:7, version:2, lease:99}`
converts to identical field values. -/
theorem c6_fromProto_fields (p : mvccpb.KeyValue) :
    (KeyValue.fromProto p).key = p.key ∧
    (KeyValue.fromProto p).value = p.value ∧
    (KeyValue.fromProto p).create_revision = p.create_revision ∧
    (KeyValue.fromProto p).mod_revision = p.mod_revision ∧
    (KeyValue.fromProto p).version = p.version ∧
    (KeyValue.fromProto p).lease = p.lease ∧
    KeyValue.fromProto ⟨[0x61], [0x31], 5, 7, 2, 99⟩ =
      ⟨[0x61], [0x31], 5, 7, 2, 99⟩ :=
  ⟨rfl, rfl, rfl, rfl, rfl, rfl, rfl⟩

/-- C10: the implicit conversions into `KeyRange` agree with the named
constructors: `From<&str>` and `From<String>` give point semantics via
`KeyRange::key`, and `From<Range<T>>` gives `KeyRange::range(start, end)`. -/
theorem c10_from_impls_agree (s : List Nat) (r : RustRange) :
    KeyRange.fromStr s = KeyRange.ofKey s ∧
    KeyRange.fromString s = KeyRange.ofKey s ∧
    KeyRange.fromRange r = KeyRange.range r.start r.stop :=
  ⟨rfl, rfl, rfl⟩

/-- C9: for every non-empty `p`, `KeyRange::prefix(p).key` equals `p` unmodified,
and `range_end` is non-empty with length at most that of `p` — so the result never
collapses to point semantics. -/
theorem c9_pfx_invariants (p : List Nat) (h : p ≠ []) :
    (KeyRange.pfx p).key = p ∧ (KeyRange.pfx p).range_end ≠ [] ∧
    (KeyRange.pfx p).range_end.length ≤ p.length := by
  rw [KeyRange.pfx, if_neg h]
  cases hr : pfxEndLoop p with
  | some r =>
    obtain ⟨h1, h2⟩ := pfxEndLoop_some_shape hr
    exact ⟨rfl, by simpa [hr] using h1, by simpa [hr] using h2⟩
  | none => exact ⟨rfl, by simpa [hr] using h, by simp [hr]⟩

/-- Witness for C9 at the concrete input `"a"`. -/
theorem c9_pfx_invariants_witness :
    ([0x61] ≠ ([] : List Nat)) ∧
    ((KeyRange.pfx [0x61]).key = [0x61] ∧ (KeyRange.pfx [0x61]).range_end ≠ [] ∧
      (KeyRange.pfx [0x61]).range_end.length ≤ [0x61].length) :=
  ⟨by decide, c9_pfx_invariants [0x61] (by decide)⟩

/-- C8: the `KeyRange` constructors are total over byte sequences, and with `u8`
inputs no step leaves the `u8` range — in particular the increment in the backward
scan of `prefix` never overflows a byte. -/
theorem c8_constructors_preserve_bytes (k r p : List Nat)
    (hk : ValidBytes k) (hr : ValidBytes r) (hp : ValidBytes p) :
    (ValidBytes (KeyRange.range k r).key ∧ ValidBytes (KeyRange.range k r).range_end) ∧
    (ValidBytes (KeyRange.ofKey k).key ∧ ValidBytes (KeyRange.ofKey k).range_end) ∧
    (ValidBytes KeyRange.all.key ∧ ValidBytes KeyRange.all.range_end) ∧
    (ValidBytes (KeyRange.pfx p).key ∧ ValidBytes (KeyRange.pfx p).range_end) := by
  refine ⟨⟨hk, hr⟩, ⟨hk, by intro b hb; simp [KeyRange.ofKey] at hb⟩,
    ⟨by decide, by decide⟩, ?_⟩
  by_cases hp0 : p = []
  · subst hp0
    exact ⟨by decide, by decide⟩
  · rw [KeyRange.pfx, if_neg hp0]
    refine ⟨hp, ?_⟩
    cases hq : pfxEndLoop p with
    | some q => simpa [hq] using pfxEndLoop_valid hp hq
    | none => simpa [hq] using hp

/-- Witness for C8 at concrete inputs. -/
theorem c8_constructors_preserve_bytes_witness :
    (ValidBytes [1] ∧ ValidBytes [2] ∧ ValidBytes [0xff]) ∧
    ((ValidBytes (KeyRange.range [1] [2]).key ∧ ValidBytes (KeyRange.range [1] [2]).range_end) ∧
      (ValidBytes (KeyRange.ofKey [1]).key ∧ ValidBytes (KeyRange.ofKey [1]).range_end) ∧
      (ValidBytes KeyRange.all.key ∧ ValidBytes KeyRange.all.range_end) ∧
      (ValidBytes (KeyRange.pfx [0xff]).key ∧ ValidBytes (KeyRange.pfx [0xff]).range_end)) :=
  ⟨⟨by decide, by decide, by decide⟩,
    c8_constructors_preserve_bytes [1] [2] [0xff] (by decide) (by decide) (by decide)⟩

/-- C7: on a key (resp. value) that is valid UTF-8 — i.e. the UTF-8 encoding of a
sequence of Unicode scalar values — `key_str` (resp. `value_str`) returns exactly
the string whose byte representation is those bytes; and whenever the accessor
returns at all, its result is such a faithful decoding, so on bytes that are not
valid UTF-8 it yields `none` (the model of the process-aborting `expect`), never a
default, empty, or lossy value. -/
theorem c7_text_accessors (kv : KeyValue) :
    (∀ cs, KeyValue.key_str kv = some cs →
      (∀ c ∈ cs, UnicodeScalar c) ∧ utf8Encode cs = kv.key) ∧
    (∀ cs, (∀ c ∈ cs, UnicodeScalar c) → utf8Encode cs = kv.key →
      KeyValue.key_str kv = some cs) ∧
    (∀ cs, KeyValue.value_str kv = some cs →
      (∀ c ∈ cs, UnicodeScalar c) ∧ utf8Encode cs = kv.value) ∧
    (∀ cs, (∀ c ∈ cs, UnicodeScalar c) → utf8Encode cs = kv.value →
      KeyValue.value_str kv = some cs) := by
  refine ⟨?_, ?_, ?_, ?_⟩
  · intro cs h
    obtain ⟨he, hs⟩ := utf8DecodeFuel_sound (Nat.le_refl _) h
    exact ⟨hs, he⟩
  · intro cs hs he
    show utf8Decode kv.key = some cs
    rw [← he]
    exact utf8DecodeFuel_encode hs _ (Nat.le_refl _)
  · intro cs h
    obtain ⟨he, hs⟩ := utf8DecodeFuel_sound (Nat.le_refl _) h
    exact ⟨hs, he⟩
  · intro cs hs he
    show utf8Decode kv.value = some cs
    rw [← he]
    exact utf8DecodeFuel_encode hs _ (Nat.le_refl _)

/-- Witness for C7 at a concrete record whose key `"hi"` is valid UTF-8 (the
accessor hypothesis is discharged by evaluation) and whose value `[0xff]` is
not. -/
theorem c7_text_accessors_witness :
    ((∀ c ∈ [0x68, 0x69], UnicodeScalar c) ∧
      utf8Encode [0x68, 0x69] = [0x68, 0x69]) ∧
    KeyValue.value_str ⟨[0x68, 0x69], [0xff], 0, 0, 0, 0⟩ = none :=
  ⟨(c7_text_accessors ⟨[0x68, 0x69], [0xff], 0, 0, 0, 0⟩).1 [0x68, 0x69]
      (by decide),
    by decide⟩

/-- C2: for every non-empty `p` with some byte below `0xff`,
`KeyRange::prefix(p).range_end` is the least upper bound of the keys with prefix
`p`: every key with that prefix is lexicographically below `range_end`, and no
correct bound `e` (one admitting every key with the prefix) is lexicographically
below `range_end` — so no tighter bound could exclude any further key. -/
theorem c2_pfx_range_end_least_upper_bound (p : List Nat) (hne : p ≠ [])
    (hvp : ValidBytes p) (hlt : ∃ b ∈ p, b < 255) :
    (∀ k, List.IsPrefix p k →
      List.Lex (· < ·) k (KeyRange.pfx p).range_end) ∧
    (∀ e, ValidBytes e →
      (∀ k, ValidBytes k → List.IsPrefix p k → List.Lex (· < ·) k e) →
      ¬ List.Lex (· < ·) e (KeyRange.pfx p).range_end) := by
  cases hq : pfxEndLoop p with
  | none =>
    exfalso
    have hrep := pfxEndLoop_none_replicate hvp hq
    obtain ⟨b, hb, hb255⟩ := hlt
    rw [hrep] at hb
    have := List.eq_of_mem_replicate hb
    omega
  | some q =>
    have hre : (KeyRange.pfx p).range_end = q := by
      rw [KeyRange.pfx, if_neg hne]
      simp [hq]
    rw [hre]
    obtain ⟨a, c, n, hc, hp, hqe⟩ := pfxEndLoop_decomp hvp hq
    subst hqe
    constructor
    · intro k hk
      obtain ⟨t, rfl⟩ := hk
      rw [hp]
      have hsplit : (a ++ c :: List.replicate n 255) ++ t =
          a ++ (c :: (List.replicate n 255 ++ t)) := by simp
      rw [hsplit]
      exact List.Lex.append_left _ (List.Lex.rel (Nat.lt_succ_self c)) a
    · intro e hve H
      have Hm : ∀ m,
          List.Lex (· < ·) (a ++ c :: List.replicate (n + m) 255) e := by
        intro m
        have hvk : ValidBytes (p ++ List.replicate m 255) := by
          intro y hy
          rcases List.mem_append.mp hy with hy | hy
          · exact hvp y hy
          · have := List.eq_of_mem_replicate hy
            omega
        have hb := H (p ++ List.replicate m 255) hvk ⟨_, rfl⟩
        rw [hp] at hb
        have heq : (a ++ c :: List.replicate n 255) ++ List.replicate m 255 =
            a ++ c :: List.replicate (n + m) 255 := by
          rw [List.replicate_add]
          simp
        rwa [heq] at hb
      exact lex_min_aux c n hc a e hve Hm

/-- Witness for C2 at the concrete input `"a"`: the key `"az"` has the prefix and
lies below the computed `range_end`. -/
theorem c2_pfx_range_end_least_upper_bound_witness :
    (([0x61] : List Nat) ≠ [] ∧ ValidBytes [0x61] ∧ ∃ b ∈ [0x61], b < 255) ∧
    List.Lex (· < ·) [0x61, 0x7a] (KeyRange.pfx [0x61]).range_end :=
  ⟨⟨by decide, by decide, by decide⟩,
    (c2_pfx_range_end_least_upper_bound [0x61] (by decide) (by decide)
      (by decide)).1 [0x61, 0x7a] ⟨[0x7a], rfl⟩⟩

/-- C1 fails on the code: on the all-`0xff` input `[0xff]` the backward scan of
`KeyRange::prefix` falls through, and the function silently returns the literal
finite `range_end = [0xff]` — the empty half-open interval, which excludes even
the key `[0xff]` itself although it has the prefix.  No explicit unbounded
upper-end representation is produced. -/
theorem c1_all_ff_finite_range_end :
    (KeyRange.pfx [0xff]).range_end = [0xff] ∧
    List.IsPrefix [0xff] [0xff] ∧
    ¬ List.Lex (· < ·) [0xff] (KeyRange.pfx [0xff]).range_end := by
  refine ⟨rfl, List.prefix_refl _, ?_⟩
  have : (KeyRange.pfx [0xff]).range_end = [0xff] := rfl
  rw [this]
  decide

end Etcd
